import Mathlib

/-!
# Tone picker: sentence diff, edit history, prompt mapping, cache and request validation

A shallow embedding of `src/frontend/src/App.jsx` (`sentenceDiff`, the undo/redo history of
`App`) and `src/backend/server.js` (`cacheGet`, `cacheSet`, `buildPrompt`, the `/api/tone`
handler), followed by the properties proved about them.

JavaScript strings are sequences of UTF-16 code units; they are modelled as lists of natural
numbers, one per code unit.
-/

set_option autoImplicit false

namespace TonePicker

/-! ## Strings -/

/-- A JavaScript string: its UTF-16 code units, in order. -/
abbrev JSString := List Nat

/-- The code units of a string literal (all literals used here are ASCII). -/
def lit (s : String) : JSString := s.toList.map Char.toNat

/-- The class `\s` of a JavaScript regular expression, which is also the set of code units
removed by `String.prototype.trim`: WhiteSpace (TAB, VT, FF, ZWNBSP and the space separators)
together with LineTerminator (LF, CR, LS, PS). -/
def isWhiteSpace (c : Nat) : Bool :=
  c == 9 || c == 10 || c == 11 || c == 12 || c == 13 || c == 32 || c == 160 || c == 5760 ||
  (8192 ≤ c && c ≤ 8202) || c == 8232 || c == 8233 || c == 8239 || c == 8287 || c == 12288 ||
  c == 65279

/-- The character class `[.?!]`. -/
def isTerminator (c : Nat) : Bool := c == 46 || c == 63 || c == 33

/-- The space character `" "`. -/
def space : JSString := [32]

/-- The method `String.prototype.trim`: remove leading and trailing white space. -/
def trim (s : JSString) : JSString := (s.dropWhile isWhiteSpace).rdropWhile isWhiteSpace

/-! ## `sentenceDiff` (App.jsx, lines 28-74) -/

/-- Scanner for `t.split(/(?<=[.?!])\s+/)`, left to right over the code units of `t`.
* `skipping`: the scan is inside a separator match (`\s+` is greedy, it takes the whole
  white-space run);
* `prev`: the previous code unit is one of `.`, `?`, `!` (the lookbehind);
* `cur`: the piece collected since the end of the last separator.
A separator starts at a white-space code unit that directly follows a terminator; the piece
collected so far is emitted there. The piece after the last separator is emitted at the end
of the input, also when it is empty. -/
def splitScan : List Nat → Bool → Bool → JSString → List JSString
  | [], _, _, cur => [cur]
  | c :: rest, skipping, prev, cur =>
    if skipping && isWhiteSpace c then splitScan rest true false cur
    else if prev && isWhiteSpace c then cur :: splitScan rest true false []
    else splitScan rest false (isTerminator c) (cur ++ [c])

/-- The local function `split` of `sentenceDiff`:
`t.split(/(?<=[.?!])\s+/).map((s) => s.trim()).filter(Boolean)`. -/
def split (t : JSString) : List JSString :=
  ((splitScan t false false []).map trim).filter (fun s => !s.isEmpty)

/-- The `type` field of an element of the edit script. -/
inductive RunType where
  | equal
  | added
  | removed
  deriving DecidableEq, Repr

/-- An element `{ type, text }` of the edit script. -/
structure Run where
  type : RunType
  text : JSString
  deriving DecidableEq, Repr

/-- The table `dp`, an array of rows. -/
abbrev Table := List (List Nat)

/-- Read `dp[i][j]`. -/
def dpGet (dp : Table) (i j : Nat) : Nat := (dp.getD i []).getD j 0

/-- The assignment `dp[i][j] = v`. -/
def dpSet (dp : Table) (i j v : Nat) : Table := dp.set i ((dp.getD i []).set j v)

/-- The initial table `Array.from({ length: n + 1 }, () => Array(m + 1).fill(0))`. -/
def newTable (n m : Nat) : Table := List.replicate (n + 1) (List.replicate (m + 1) 0)

/-- The body of the inner loop, lines 43-44. -/
def fillCell (a b : List JSString) (dp : Table) (i j : Nat) : Table :=
  if a[i]? = b[j]? then dpSet dp i j (1 + dpGet dp (i + 1) (j + 1))
  else dpSet dp i j (max (dpGet dp (i + 1) j) (dpGet dp i (j + 1)))

/-- The inner loop `for (let j = m - 1; j >= 0; --j)` of row `i`; the first argument is the
number of columns still to fill, so the next column filled is `j`. -/
def fillRow (a b : List JSString) (i : Nat) : Nat → Table → Table
  | 0, dp => dp
  | j + 1, dp => fillRow a b i j (fillCell a b dp i j)

/-- The outer loop `for (let i = n - 1; i >= 0; --i)`; the first argument is the number of
rows still to fill, so the next row filled is `i`. -/
def fillRows (a b : List JSString) : Nat → Table → Table
  | 0, dp => dp
  | i + 1, dp => fillRows a b i (fillRow a b i b.length dp)

/-- The table `dp` after the two nested loops, lines 38-46. -/
def lcsTable (a b : List JSString) : Table :=
  fillRows a b a.length (newTable a.length b.length)

/-- The recovery of the raw script from position `(i, j)`, lines 51-65: the main `while` loop,
then the two loops that flush what is left of `a` as removed and of `b` as added. -/
def recover (a b : List JSString) (dp : Table) (i j : Nat) : List Run :=
  if h : i < a.length ∧ j < b.length then
    if a[i] = b[j] then
      ⟨RunType.equal, a[i]⟩ :: recover a b dp (i + 1) (j + 1)
    else if dpGet dp (i + 1) j ≥ dpGet dp i (j + 1) then
      ⟨RunType.removed, a[i]⟩ :: recover a b dp (i + 1) j
    else
      ⟨RunType.added, b[j]⟩ :: recover a b dp i (j + 1)
  else
    (a.drop i).map (Run.mk RunType.removed) ++ (b.drop j).map (Run.mk RunType.added)
termination_by (a.length - i) + (b.length - j)
decreasing_by all_goals omega

/-- The array `result` of `sentenceDiff` before merging, for the sentence sequences `a`, `b`. -/
def rawScript (a b : List JSString) : List Run := recover a b (lcsTable a b) 0 0

/-- One iteration of the merge loop, lines 69-71: extend the text of the last merged run when
it has the type of `r`, push a copy of `r` otherwise. -/
def mergeStep (merged : List Run) (r : Run) : List Run :=
  match merged.getLast? with
  | some last =>
    if last.type = r.type then merged.dropLast ++ [{ last with text := last.text ++ space ++ r.text }]
    else merged ++ [r]
  | none => merged ++ [r]

/-- The merge loop, lines 67-72. -/
def mergeRuns (result : List Run) : List Run := result.foldl mergeStep []

/-- The function `sentenceDiff(oldText, newText)`. -/
def sentenceDiff (oldText newText : JSString) : List Run :=
  mergeRuns (rawScript (split oldText) (split newText))

/-! ## Edit history (App.jsx, lines 191-262)

Only the two state variables `history` and `index` are modelled; `index` is a JavaScript
number, here an integer. -/

/-- The state variables `history` and `index` of `App`. -/
structure HistoryState where
  history : List JSString
  index : Int
  deriving DecidableEq, Repr

/-- The initial state when nothing is stored: `JSON.parse("[]")` and `Number(0)`. -/
def initialState : HistoryState := ⟨[], 0⟩

/-- The call `xs.slice(0, e)`: a negative `e` counts from the end of the array. -/
def sliceTo {α : Type} (xs : List α) (e : Int) : List α :=
  if e < 0 then xs.take (max ((xs.length : Int) + e) 0).toNat else xs.take e.toNat

/-- The handler `handleUndo`, lines 210-215. -/
def handleUndo (s : HistoryState) : HistoryState :=
  if s.index > 0 then { s with index := s.index - 1 } else s

/-- The handler `handleRedo`, lines 216-221. -/
def handleRedo (s : HistoryState) : HistoryState :=
  if s.index < (s.history.length : Int) - 1 then { s with index := s.index + 1 } else s

/-- The history update of a successful rewrite in `applyTone`, lines 241-243. -/
def applyTone (s : HistoryState) (newText : JSString) : HistoryState :=
  let newHistory := sliceTo s.history (s.index + 1) ++ [newText]
  ⟨newHistory, (newHistory.length : Int) - 1⟩

/-- The handler `resetAll`, lines 255-262. -/
def resetAll (_s : HistoryState) : HistoryState := ⟨[lit "Type your text here..."], 0⟩

/-- The History invariant of the specification: `0 ≤ index < length`. -/
def HistoryInv (s : HistoryState) : Prop := 0 ≤ s.index ∧ s.index < (s.history.length : Int)

instance (s : HistoryState) : Decidable (HistoryInv s) := by
  unfold HistoryInv; infer_instance

/-! ## Cache (server.js, lines 17-25)

The clock `Date.now()` and the constant `CACHE_TTL_MS` are explicit arguments; the `Map` is a
function from keys to optional entries. -/

/-- A cache entry `{ val, exp }`. -/
structure CacheItem where
  val : JSString
  exp : Int
  deriving DecidableEq, Repr

/-- The `Map` named `cache`. -/
abbrev Cache (K : Type) := K → Option CacheItem

/-- The call `cacheGet(k)` at time `now`: the value returned (`none` for `null`) and the map after. -/
def cacheGet {K : Type} [DecidableEq K] (now : Int) (cache : Cache K) (k : K) :
    Option JSString × Cache K :=
  match cache k with
  | none => (none, cache)
  | some item =>
    if now > item.exp then (none, fun k' => if k' = k then none else cache k')
    else (some item.val, cache)

/-- The call `cacheSet(k, v)` at time `now`, with `ttl` for `CACHE_TTL_MS`. -/
def cacheSet {K : Type} [DecidableEq K] (ttl now : Int) (cache : Cache K) (k : K)
    (v : JSString) : Cache K :=
  fun k' => if k' = k then some ⟨v, now + ttl⟩ else cache k'

/-- A call of one of the two cache functions, with the time of the call. -/
inductive CacheOp (K : Type) where
  | get (now : Int) (k : K)
  | set (now : Int) (k : K) (v : JSString)

/-- The map after a sequence of calls. -/
def runOps {K : Type} [DecidableEq K] (ttl : Int) : List (CacheOp K) → Cache K → Cache K
  | [], cache => cache
  | CacheOp.get now k :: ops, cache => runOps ttl ops (cacheGet now cache k).2
  | CacheOp.set now k v :: ops, cache => runOps ttl ops (cacheSet ttl now cache k v)

/-! ## JavaScript values of the request -/

/-- A JavaScript number: NaN, the infinities, or a finite value (every finite double is a
rational number). -/
inductive JSNum where
  | nan
  | negInf
  | fin (q : ℚ)
  | posInf
  deriving DecidableEq

/-- The comparison `x < y` of two numbers; it is false when either is NaN. -/
def JSNum.lt : JSNum → JSNum → Bool
  | JSNum.nan, _ => false
  | _, JSNum.nan => false
  | JSNum.negInf, JSNum.negInf => false
  | JSNum.negInf, _ => true
  | _, JSNum.negInf => false
  | JSNum.posInf, _ => false
  | JSNum.fin _, JSNum.posInf => true
  | JSNum.fin p, JSNum.fin q => decide (p < q)

/-- The comparison `x > y`. -/
def JSNum.gt (x y : JSNum) : Bool := JSNum.lt y x

/-- The double denoted by the literal `0.33`. -/
def num033 : JSNum := JSNum.fin (5944751508129055 / 18014398509481984)

/-- The double denoted by the literal `0.66`. -/
def num066 : JSNum := JSNum.fin (5944751508129055 / 9007199254740992)

/-- A value of a field of the parsed JSON body; `object` stands for any object or array. -/
inductive JSVal where
  | undefined
  | null
  | bool (b : Bool)
  | num (x : JSNum)
  | str (s : JSString)
  | object
  deriving DecidableEq

/-- Truthiness, as tested by `!v` and `if (v)`. -/
def truthy : JSVal → Bool
  | JSVal.undefined => false
  | JSVal.null => false
  | JSVal.bool b => b
  | JSVal.num x => !(x == JSNum.nan || x == JSNum.fin 0)
  | JSVal.str s => !s.isEmpty
  | JSVal.object => true

/-- The properties `formal` and `friendly` read from a truthy `axes`. -/
structure Axes where
  formal : JSVal
  friendly : JSVal
  deriving DecidableEq

/-! ## `buildPrompt` (server.js, lines 27-49)

`axes` is `none` when the field is absent or falsy. The tone label is a string when present. -/

/-- The qualifier `formality`, line 29. -/
def formalityOf (formal : JSNum) : JSString :=
  if formal.lt num033 then lit "casual"
  else if formal.gt num066 then lit "very formal"
  else lit "neutral-professional"

/-- The qualifier `warmth`, line 30. -/
def warmthOf (friendly : JSNum) : JSString :=
  if friendly.lt num033 then lit "direct and concise"
  else if friendly.gt num066 then lit "warm and friendly"
  else lit "balanced"

/-- The function `buildPrompt({ text, axes, tone })`. -/
def buildPrompt (text : JSString) (axes : Option Axes) (tone : Option JSString) : JSString :=
  match axes with
  | some ⟨JSVal.num formal, JSVal.num friendly⟩ =>
    lit "Rewrite the user text with the following tone:\n- Formality: " ++ formalityOf formal ++
    lit "\n- Warmth: " ++ warmthOf friendly ++
    lit "\n\nRules:\n- Preserve meaning and key details.\n- Keep similar length.\n- Return ONLY the rewritten text.\n\nUser text:\n" ++
    text
  | _ =>
    match tone with
    | some (c :: t) =>
      lit "Rewrite the user text in a " ++ (c :: t) ++
      lit " tone. Return only the rewritten text.\n\nUser text:\n" ++ text
    | _ => lit "Rewrite the text preserving meaning:\n\n" ++ text

/-! ## The `/api/tone` handler (server.js, lines 51-92)

The completion service is an argument: it maps the prompt to the error thrown by the call, or
to the content `out` of the first choice (empty when there is none). The effects of a request
on the cache and on the service are recorded in order. -/

/-- The JSON body of a reply. -/
inductive Reply where
  | ok (text : JSString) (cached : Bool)
  | error (msg : JSString)
  deriving DecidableEq

/-- A reply with its HTTP status. -/
structure Response where
  status : Nat
  body : Reply
  deriving DecidableEq

/-- An effect of the handler outside its own frame. -/
inductive Effect (K : Type) where
  | cacheLookup (k : K)
  | cacheWrite (k : K) (v : JSString)
  | upstreamCall (prompt : JSString)
  deriving DecidableEq

/-- The fields read from `req.body ?? {}`. -/
structure Body where
  text : JSVal
  axes : Option Axes
  tone : Option JSString

/-- The test of line 54: `!text || typeof text !== "string" || text.trim().length === 0`. -/
def invalidText (text : JSVal) : Bool :=
  !truthy text ||
  (match text with
   | JSVal.str s => (trim s).length == 0
   | _ => true)

/-- The handler. `keyOf` is `JSON.stringify({ text, axes, tone })`, `configured` says whether
`MISTRAL_API_KEY` is set, `now` is the time of the cache lookup and `now2` the time of the
cache write. The result is the response, the cache after the request, and the effects. -/
def toneHandler {K : Type} [DecidableEq K]
    (keyOf : JSString → Option Axes → Option JSString → K) (ttl : Int) (configured : Bool)
    (upstream : JSString → Except JSString JSString) (now now2 : Int)
    (cache : Cache K) (body : Body) : Response × Cache K × List (Effect K) :=
  if invalidText body.text then
    (⟨400, Reply.error (lit "Missing or empty `text`")⟩, cache, [])
  else
    let text := match body.text with
      | JSVal.str s => s
      | _ => []
    let key := keyOf text body.axes body.tone
    let looked := cacheGet now cache key
    match looked.1 with
    | some (c :: cs) => (⟨200, Reply.ok (c :: cs) true⟩, looked.2, [Effect.cacheLookup key])
    | _ =>
      if !configured then
        (⟨500, Reply.error (lit "MISTRAL_API_KEY not configured on server")⟩, looked.2,
          [Effect.cacheLookup key])
      else
        let prompt := buildPrompt text body.axes body.tone
        match upstream prompt with
        | Except.error msg =>
          (⟨500, Reply.error msg⟩, looked.2, [Effect.cacheLookup key, Effect.upstreamCall prompt])
        | Except.ok [] =>
          (⟨500, Reply.error (lit "Empty response from model")⟩, looked.2,
            [Effect.cacheLookup key, Effect.upstreamCall prompt])
        | Except.ok (o :: os) =>
          (⟨200, Reply.ok (o :: os) false⟩, cacheSet ttl now2 looked.2 key (o :: os),
            [Effect.cacheLookup key, Effect.upstreamCall prompt, Effect.cacheWrite key (o :: os)])

/-! ## Definitions used to state the properties -/

/-- The double denoted by the literal `0.1`. -/
def num01 : JSNum := JSNum.fin (3602879701896397 / 36028797018963968)

/-- The double denoted by the literal `0.5`. -/
def num05 : JSNum := JSNum.fin (1 / 2)

/-- The double denoted by the literal `0.9`. -/
def num09 : JSNum := JSNum.fin (8106479329266893 / 9007199254740992)

/-- A call that is not a write to `k` before time `t`: a `cacheSet` of another key, or a
`cacheGet`, which for the key `k` itself happens no later than `t`. -/
def NoWriteTo {K : Type} (k : K) (t : Int) : CacheOp K → Prop
  | CacheOp.get now k' => k' = k → now ≤ t
  | CacheOp.set _ k' _ => k' ≠ k

/-- A `text` field that is missing or not a string, empty, or made of white space only. -/
def MissingOrBlank (text : JSVal) : Prop :=
  text = JSVal.undefined ∨ (∀ s, text ≠ JSVal.str s) ∨ text = JSVal.str [] ∨
  ∃ s, text = JSVal.str s ∧ ∀ c ∈ s, isWhiteSpace c = true

/-- The merge step on the reversed array `merged`, whose head is the last merged run. -/
def mergeStepR (mergedR : List Run) (r : Run) : List Run :=
  match mergedR with
  | last :: rest =>
    if last.type = r.type then { last with text := last.text ++ space ++ r.text } :: rest
    else r :: last :: rest
  | [] => [r]

/-- The texts of a list of runs joined with single spaces. -/
def joinTexts (rs : List Run) : JSString := List.intercalate space (rs.map Run.text)

/-- The run `r` replaces the group `g` of consecutive elements of the raw script: `g` is not
empty, its elements have the type of `r`, and the text of `r` is their texts joined with
single spaces. -/
def GroupOf (g : List Run) (r : Run) : Prop :=
  g ≠ [] ∧ (∀ s ∈ g, s.type = r.type) ∧ r.text = joinTexts g

/-- Adjacent runs have different types. -/
def Alternating (rs : List Run) : Prop := List.Chain' (fun x y => x.type ≠ y.type) rs

/-- A run of the old text: its type is equal or removed. -/
def isOld (r : Run) : Bool := r.type == RunType.equal || r.type == RunType.removed

/-- A run of the new text: its type is equal or added. -/
def isNew (r : Run) : Bool := r.type == RunType.equal || r.type == RunType.added

/-- A run marked equal. -/
def isEqual (r : Run) : Bool := r.type == RunType.equal

/-- The length of a longest common subsequence of two sentence sequences. -/
def lcsLen : List JSString → List JSString → Nat
  | [], _ => 0
  | _ :: _, [] => 0
  | x :: xs, y :: ys =>
    if x = y then 1 + lcsLen xs ys else max (lcsLen xs (y :: ys)) (lcsLen (x :: xs) ys)
termination_by a b => a.length + b.length

/-- The table has `n + 1` rows of `m + 1` entries. -/
def Shape (dp : Table) (n m : Nat) : Prop :=
  dp.length = n + 1 ∧ ∀ i, i ≤ n → (dp.getD i []).length = m + 1

/-- Replace each maximal run of code units satisfying `p` by one space. -/
def collapseBy (p : Nat → Bool) : JSString → JSString
  | [] => []
  | c :: rest =>
    if p c then 32 :: collapseBy p (rest.dropWhile p)
    else c :: collapseBy p rest
termination_by s => s.length
decreasing_by
  all_goals simp_wf
  · have := (List.dropWhile_sublist p (l := rest)).length_le
    omega

/-- Replace each maximal run of white space by one space, `s.replace(/\s+/g, " ")`. -/
def collapseWs (s : JSString) : JSString := collapseBy isWhiteSpace s

/-- White-space normalisation: collapse each maximal white-space run to one space, then strip
leading and trailing white space. -/
def normalizeWs (s : JSString) : JSString := trim (collapseWs s)

/-- The maximal runs of code units that do not satisfy `p`, in order. -/
def wordsBy (p : Nat → Bool) : JSString → List JSString
  | [] => []
  | c :: rest =>
    if p c then wordsBy p rest
    else (c :: rest.takeWhile (fun d => !p d)) :: wordsBy p (rest.dropWhile (fun d => !p d))
termination_by s => s.length
decreasing_by
  all_goals simp_wf
  · have := (List.dropWhile_sublist (fun d => !p d) (l := rest)).length_le
    omega

/-- The maximal runs of code units that are not white space, in order. -/
def words (s : JSString) : List JSString := wordsBy isWhiteSpace s

/-- The string does not start with a code unit satisfying `p`. -/
def NoLead (p : Nat → Bool) : JSString → Prop
  | [] => True
  | c :: _ => p c = false

/-! ## Properties of the edit history -/

theorem sliceTo_of_nonneg {α : Type} (xs : List α) (e : Int) (he : 0 ≤ e) :
    sliceTo xs e = xs.take e.toNat := by
  unfold sliceTo
  rw [if_neg (by omega)]

/-- Each of the four operations keeps `0 ≤ index < length` once it holds. -/
theorem historyInv_preserved (s : HistoryState) (x : JSString) (hs : HistoryInv s) :
    HistoryInv (applyTone s x) ∧ HistoryInv (handleUndo s) ∧ HistoryInv (handleRedo s) ∧
    HistoryInv (resetAll s) := by
  obtain ⟨h0, h1⟩ := hs
  refine ⟨?_, ?_, ?_, ?_⟩
  · simp only [HistoryInv, applyTone, List.length_append, List.length_singleton]
    constructor <;> push_cast <;> omega
  · unfold handleUndo
    split_ifs with h
    · exact ⟨by simp only; omega, by simp only; omega⟩
    · exact ⟨h0, h1⟩
  · unfold handleRedo
    split_ifs with h
    · exact ⟨by simp only; omega, by simp only; omega⟩
    · exact ⟨h0, h1⟩
  · simp [HistoryInv, resetAll]

/-- C4: for a history `h` and an index `0 ≤ i < length h`, the append of a successful rewrite
gives the history `h[0..i]` followed by `x` (the first `i+1` snapshots unchanged, everything
after position `i` discarded) and the index `i+1`, the last position of the new history; from
`["A","B","C"]` at index 1, appending `"D"` gives `["A","B","D"]` at index 2. -/
theorem applyTone_truncates_and_appends (h : List JSString) (i : Int) (x : JSString)
    (h0 : 0 ≤ i) (h1 : i < (h.length : Int)) :
    (applyTone ⟨h, i⟩ x).history = h.take (i.toNat + 1) ++ [x] ∧
    (applyTone ⟨h, i⟩ x).index = i + 1 ∧
    ((applyTone ⟨h, i⟩ x).history.length : Int) = i + 2 ∧
    (∀ k : Nat, (k : Int) ≤ i → (applyTone ⟨h, i⟩ x).history[k]? = h[k]?) ∧
    (applyTone ⟨h, i⟩ x).history[i.toNat + 1]? = some x ∧
    applyTone ⟨[lit "A", lit "B", lit "C"], 1⟩ (lit "D") = ⟨[lit "A", lit "B", lit "D"], 2⟩ := by
  have hk : (i + 1).toNat = i.toNat + 1 := by omega
  have hlen : (h.take (i.toNat + 1)).length = i.toNat + 1 := by
    rw [List.length_take]; omega
  have hist : (applyTone ⟨h, i⟩ x).history = h.take (i.toNat + 1) ++ [x] := by
    simp only [applyTone]
    rw [sliceTo_of_nonneg _ _ (by omega), hk]
  refine ⟨hist, ?_, ?_, ?_, ?_, ?_⟩
  · simp only [applyTone]
    rw [sliceTo_of_nonneg _ _ (by omega), hk, List.length_append, hlen]
    simp only [List.length_singleton]
    push_cast
    omega
  · rw [hist, List.length_append, hlen]
    simp only [List.length_singleton]
    push_cast
    omega
  · intro k hk'
    rw [hist, List.getElem?_append_left (by rw [hlen]; omega), List.getElem?_take]
    rw [if_pos (by omega)]
  · rw [hist, List.getElem?_append_right (by rw [hlen])]
    simp [hlen]
  · decide

/-- The instance of C4 given in the specification. -/
theorem applyTone_truncates_and_appends_witness :
    (0 : Int) ≤ 1 ∧ (1 : Int) < (([lit "A", lit "B", lit "C"] : List JSString).length : Int) ∧
    (applyTone ⟨[lit "A", lit "B", lit "C"], 1⟩ (lit "D")).history =
      [lit "A", lit "B", lit "C"].take ((1 : Int).toNat + 1) ++ [lit "D"] :=
  ⟨by decide, by decide,
    (applyTone_truncates_and_appends [lit "A", lit "B", lit "C"] 1 (lit "D")
      (by decide) (by decide)).1⟩

/-- C5: in the initial state of the app (nothing stored) the history is empty and the index
is 0, so the invariant `0 ≤ index < length` does not hold there; undo and redo leave that
state unchanged, and the first successful rewrite leads to a state where it holds. -/
theorem initialState_breaks_historyInv :
    initialState.history = [] ∧ initialState.index = 0 ∧ ¬ HistoryInv initialState ∧
    handleUndo initialState = initialState ∧ handleRedo initialState = initialState ∧
    HistoryInv (resetAll initialState) ∧
    applyTone initialState (lit "B") = ⟨[lit "B"], 0⟩ := by
  refine ⟨rfl, rfl, ?_, ?_, ?_, ?_, ?_⟩ <;> decide

/-! ## Properties of `buildPrompt` -/

/-- C6: when `axes.formal` and `axes.friendly` are numbers, whatever the tone label,
`buildPrompt` returns the fixed template with the formality qualifier `casual` below 0.33,
`very formal` above 0.66 and `neutral-professional` otherwise (0.33, 0.66 and NaN included),
the warmth qualifier `direct and concise` below 0.33, `warm and friendly` above 0.66 and
`balanced` otherwise, followed by the user text verbatim; (0.1, 0.1), (0.9, 0.9) and
(0.5, 0.5) give the three qualifier pairs of the specification. -/
theorem buildPrompt_axes (text : JSString) (formal friendly : JSNum) (tone : Option JSString) :
    buildPrompt text (some ⟨JSVal.num formal, JSVal.num friendly⟩) tone =
      lit "Rewrite the user text with the following tone:\n- Formality: " ++
      (if formal.lt num033 then lit "casual"
       else if formal.gt num066 then lit "very formal" else lit "neutral-professional") ++
      lit "\n- Warmth: " ++
      (if friendly.lt num033 then lit "direct and concise"
       else if friendly.gt num066 then lit "warm and friendly" else lit "balanced") ++
      lit "\n\nRules:\n- Preserve meaning and key details.\n- Keep similar length.\n- Return ONLY the rewritten text.\n\nUser text:\n" ++
      text ∧
    (formalityOf num01 = lit "casual" ∧ warmthOf num01 = lit "direct and concise") ∧
    (formalityOf num09 = lit "very formal" ∧ warmthOf num09 = lit "warm and friendly") ∧
    (formalityOf num05 = lit "neutral-professional" ∧ warmthOf num05 = lit "balanced") ∧
    (formalityOf num033 = lit "neutral-professional" ∧ warmthOf num033 = lit "balanced") ∧
    (formalityOf num066 = lit "neutral-professional" ∧ warmthOf num066 = lit "balanced") ∧
    (formalityOf JSNum.nan = lit "neutral-professional" ∧ warmthOf JSNum.nan = lit "balanced") := by
  refine ⟨rfl, ?_, ?_, ?_, ?_, ?_, ?_⟩ <;>
    refine ⟨?_, ?_⟩ <;>
    simp only [formalityOf, warmthOf, JSNum.lt, JSNum.gt, num01, num05, num09, num033, num066] <;>
    norm_num

/-! ## Properties of the cache -/

theorem cacheGet_other {K : Type} [DecidableEq K] (now : Int) (cache : Cache K) (k k' : K)
    (h : k' ≠ k) : (cacheGet now cache k).2 k' = cache k' := by
  unfold cacheGet
  split
  · rfl
  · split_ifs
    · simp [h]
    · rfl

theorem cacheGet_fresh {K : Type} [DecidableEq K] (now : Int) (cache : Cache K) (k : K)
    (item : CacheItem) (h : cache k = some item) (hn : now ≤ item.exp) :
    cacheGet now cache k = (some item.val, cache) := by
  unfold cacheGet
  rw [h]
  simp only
  rw [if_neg (by omega)]

theorem cacheGet_stale {K : Type} [DecidableEq K] (now : Int) (cache : Cache K) (k : K)
    (item : CacheItem) (h : cache k = some item) (hn : item.exp < now) :
    (cacheGet now cache k).1 = none ∧ (cacheGet now cache k).2 k = none := by
  unfold cacheGet
  rw [h]
  simp only
  rw [if_pos (by omega)]
  simp

theorem cacheGet_absent {K : Type} [DecidableEq K] (now : Int) (cache : Cache K) (k : K)
    (h : cache k = none) : cacheGet now cache k = (none, cache) := by
  unfold cacheGet
  rw [h]

/-- The entry written for `k` is still there after calls that do not write to `k`, unless a
lookup of `k` found it expired, which can only happen when `t` is past expiry too. -/
theorem runOps_entry {K : Type} [DecidableEq K] (ttl t : Int) (k : K) (item : CacheItem)
    (ops : List (CacheOp K)) (hops : ∀ op ∈ ops, NoWriteTo k t op) (cache : Cache K)
    (hc : cache k = some item ∨ (cache k = none ∧ item.exp < t)) :
    runOps ttl ops cache k = some item ∨ (runOps ttl ops cache k = none ∧ item.exp < t) := by
  induction ops generalizing cache with
  | nil => exact hc
  | cons op ops ih =>
    have hop := hops op (List.mem_cons_self _ _)
    have hrest : ∀ o ∈ ops, NoWriteTo k t o := fun o ho => hops o (List.mem_cons_of_mem _ ho)
    cases op with
    | get now k' =>
      simp only [runOps]
      apply ih hrest
      by_cases hk : k' = k
      · subst hk
        have hnow : now ≤ t := hop rfl
        rcases hc with hc | ⟨hc, he⟩
        · by_cases hx : now ≤ item.exp
          · rw [cacheGet_fresh now cache k' item hc hx]
            exact Or.inl hc
          · exact Or.inr ⟨(cacheGet_stale now cache k' item hc (by omega)).2, by omega⟩
        · rw [cacheGet_absent now cache k' hc]
          exact Or.inr ⟨hc, he⟩
      · rw [cacheGet_other now cache k' k (Ne.symm hk)]
        exact hc
    | set now k' v' =>
      simp only [runOps]
      apply ih hrest
      have hk : k ≠ k' := fun e => hop e.symm
      simpa [cacheSet, hk] using hc

/-- C8: after `cacheSet(k, v)` at time `t0` and calls that do not write to `k`, `cacheGet(k)`
at time `t` returns `v` when `t ≤ t0 + CACHE_TTL_MS`; when `t > t0 + CACHE_TTL_MS` it returns
null, the map has no entry for `k` afterwards, and the entry of every other key is unchanged. -/
theorem cacheGet_after_cacheSet {K : Type} [DecidableEq K] (ttl t0 t : Int) (cache : Cache K)
    (k : K) (v : JSString) (ops : List (CacheOp K)) (hops : ∀ op ∈ ops, NoWriteTo k t op) :
    (t ≤ t0 + ttl →
      (cacheGet t (runOps ttl ops (cacheSet ttl t0 cache k v)) k).1 = some v) ∧
    (t > t0 + ttl →
      (cacheGet t (runOps ttl ops (cacheSet ttl t0 cache k v)) k).1 = none ∧
      (cacheGet t (runOps ttl ops (cacheSet ttl t0 cache k v)) k).2 k = none ∧
      ∀ k', k' ≠ k →
        (cacheGet t (runOps ttl ops (cacheSet ttl t0 cache k v)) k).2 k' =
          runOps ttl ops (cacheSet ttl t0 cache k v) k') := by
  have hset : cacheSet ttl t0 cache k v k = some ⟨v, t0 + ttl⟩ := by simp [cacheSet]
  have hrun := runOps_entry ttl t k ⟨v, t0 + ttl⟩ ops hops _ (Or.inl hset)
  constructor
  · intro ht
    rcases hrun with h | ⟨_, h⟩
    · rw [cacheGet_fresh t _ k _ h ht]
    · simp only at h
      omega
  · intro ht
    refine ⟨?_, ?_, fun k' hk' => cacheGet_other t _ k k' hk'⟩
    · rcases hrun with h | ⟨h, _⟩
      · exact (cacheGet_stale t _ k _ h ht).1
      · rw [cacheGet_absent t _ k h]
    · rcases hrun with h | ⟨h, _⟩
      · exact (cacheGet_stale t _ k _ h ht).2
      · rw [cacheGet_absent t _ k h]
        exact h

/-- An instance of C8: a hit within the window, with a write to another key and an earlier
lookup in between. -/
theorem cacheGet_after_cacheSet_witness :
    (∀ op ∈ [CacheOp.set 5 2 (lit "y"), CacheOp.get 50 (1 : Nat)], NoWriteTo 1 100 op) ∧
    (cacheGet 100 (runOps 60000 [CacheOp.set 5 2 (lit "y"), CacheOp.get 50 (1 : Nat)]
      (cacheSet 60000 0 (fun _ => none) 1 (lit "x"))) 1).1 = some (lit "x") :=
  ⟨by simp [NoWriteTo],
    (cacheGet_after_cacheSet 60000 0 100 (fun _ => none) 1 (lit "x")
      [CacheOp.set 5 2 (lit "y"), CacheOp.get 50 (1 : Nat)] (by simp [NoWriteTo])).1 (by decide)⟩

/-! ## Properties of the request validation -/

theorem trim_eq_nil_iff (s : JSString) : trim s = [] ↔ ∀ c ∈ s, isWhiteSpace c = true := by
  unfold trim
  rw [List.rdropWhile_eq_nil_iff]
  constructor
  · intro h
    have hnil : s.dropWhile isWhiteSpace = [] := by
      by_contra hne
      have h1 := List.head_dropWhile_not isWhiteSpace s hne
      have h2 := h _ (List.head_mem hne)
      simp [h2] at h1
    exact List.dropWhile_eq_nil_iff.mp hnil
  · intro h
    rw [List.dropWhile_eq_nil_iff.mpr h]
    simp

theorem invalidText_iff (text : JSVal) : invalidText text = true ↔ MissingOrBlank text := by
  cases text with
  | str s =>
    simp only [invalidText, truthy, MissingOrBlank, Bool.or_eq_true, Bool.not_eq_true',
      beq_iff_eq, List.length_eq_zero, trim_eq_nil_iff]
    constructor
    · rintro (h | h)
      · have hs : s = [] := by simpa using h
        exact Or.inr (Or.inr (Or.inl (by rw [hs])))
      · exact Or.inr (Or.inr (Or.inr ⟨s, rfl, h⟩))
    · rintro (h | h | h | ⟨s', h, hs⟩)
      · cases h
      · exact absurd rfl (h s)
      · injection h with h
        subst h
        exact Or.inr (by simp)
      · injection h with h
        subst h
        exact Or.inr hs
  | _ => simp [invalidText, truthy, MissingOrBlank]

/-- C9: a request whose `text` is missing, not a string, empty or white space only is answered
with status 400 and `{ ok: false, error }`, the cache is neither looked up nor written and the
completion service is not called; every other request gets a status other than 400. -/
theorem toneHandler_rejects_blank {K : Type} [DecidableEq K]
    (keyOf : JSString → Option Axes → Option JSString → K) (ttl : Int) (configured : Bool)
    (upstream : JSString → Except JSString JSString) (now now2 : Int)
    (cache : Cache K) (body : Body) :
    (MissingOrBlank body.text ∧
      toneHandler keyOf ttl configured upstream now now2 cache body =
        (⟨400, Reply.error (lit "Missing or empty `text`")⟩, cache, [])) ∨
    (¬ MissingOrBlank body.text ∧
      (toneHandler keyOf ttl configured upstream now now2 cache body).1.status ≠ 400) := by
  by_cases h : invalidText body.text = true
  · left
    refine ⟨(invalidText_iff _).mp h, ?_⟩
    unfold toneHandler
    rw [if_pos h]
  · right
    refine ⟨fun hm => h ((invalidText_iff _).mpr hm), ?_⟩
    unfold toneHandler
    rw [if_neg h]
    simp only
    split
    · simp
    · split_ifs
      · simp
      · split <;> simp

/-! ## Properties of the merge loop -/

theorem mergeStep_eq (merged : List Run) (r : Run) :
    mergeStep merged r = (mergeStepR merged.reverse r).reverse := by
  rcases List.eq_nil_or_concat merged with rfl | ⟨init, last, rfl⟩
  · simp [mergeStep, mergeStepR]
  · rw [List.concat_eq_append]
    simp only [mergeStep, mergeStepR, List.getLast?_concat, List.dropLast_concat,
      List.reverse_append, List.reverse_cons, List.reverse_nil, List.nil_append,
      List.singleton_append]
    split_ifs <;> simp

theorem foldl_mergeStep_eq (rs merged : List Run) :
    rs.foldl mergeStep merged = (rs.foldl mergeStepR merged.reverse).reverse := by
  induction rs generalizing merged with
  | nil => simp
  | cons r rs ih => simp only [List.foldl_cons, ih, mergeStep_eq, List.reverse_reverse]

theorem intercalate_singleton (sep x : JSString) : List.intercalate sep [x] = x := by
  simp [List.intercalate, List.intersperse]

theorem intercalate_cons_cons (sep x y : JSString) (l : List JSString) :
    List.intercalate sep (x :: y :: l) = x ++ sep ++ List.intercalate sep (y :: l) := by
  simp [List.intercalate, List.intersperse]

theorem intercalate_append (sep : JSString) (xs ys : List JSString) (hx : xs ≠ [])
    (hy : ys ≠ []) :
    List.intercalate sep (xs ++ ys) = List.intercalate sep xs ++ sep ++ List.intercalate sep ys := by
  induction xs with
  | nil => exact absurd rfl hx
  | cons x xs ih =>
    cases xs with
    | nil =>
      cases ys with
      | nil => exact absurd rfl hy
      | cons y ys => rw [List.singleton_append, intercalate_cons_cons, intercalate_singleton]
    | cons x' xs =>
      rw [List.cons_append, List.cons_append, intercalate_cons_cons, ← List.cons_append,
        ih (by simp), intercalate_cons_cons]
      simp [List.append_assoc]

theorem joinTexts_append (xs ys : List Run) (hx : xs ≠ []) (hy : ys ≠ []) :
    joinTexts (xs ++ ys) = joinTexts xs ++ space ++ joinTexts ys := by
  unfold joinTexts
  rw [List.map_append, intercalate_append _ _ _ (by simpa using hx) (by simpa using hy)]

theorem joinTexts_singleton (r : Run) : joinTexts [r] = r.text := by
  simp [joinTexts, intercalate_singleton]

theorem mergeStepR_groups (mergedR : List Run) (groupsR : List (List Run)) (r : Run)
    (hg : List.Forall₂ GroupOf groupsR mergedR) (hc : Alternating mergedR) :
    ∃ groupsR', List.Forall₂ GroupOf groupsR' (mergeStepR mergedR r) ∧
      groupsR'.reverse.flatten = groupsR.reverse.flatten ++ [r] ∧
      Alternating (mergeStepR mergedR r) := by
  cases mergedR with
  | nil =>
    have hnil : groupsR = [] := List.forall₂_nil_right_iff.mp hg
    subst hnil
    refine ⟨[[r]], ?_, by simp, by simp [mergeStepR, Alternating]⟩
    simp only [mergeStepR]
    exact List.Forall₂.cons ⟨by simp, by simp, (joinTexts_singleton r).symm⟩ List.Forall₂.nil
  | cons last rest =>
    obtain ⟨g, gs, hgl, hgs, rfl⟩ := List.forall₂_cons_right_iff.mp hg
    obtain ⟨hne, hty, htx⟩ := hgl
    simp only [mergeStepR]
    split_ifs with h
    · refine ⟨(g ++ [r]) :: gs, ?_, by simp, ?_⟩
      · refine List.Forall₂.cons ⟨by simp, ?_, ?_⟩ hgs
        · intro s hs
          rcases List.mem_append.mp hs with hs | hs
          · exact hty s hs
          · rw [List.mem_singleton.mp hs]
            exact h.symm
        · rw [joinTexts_append g [r] hne (by simp), joinTexts_singleton, ← htx]
      · unfold Alternating at hc ⊢
        cases rest with
        | nil => simp
        | cons y ys =>
          rw [List.chain'_cons] at hc ⊢
          exact hc
    · refine ⟨[r] :: g :: gs, ?_, by simp, ?_⟩
      · exact List.Forall₂.cons ⟨by simp, by simp, (joinTexts_singleton r).symm⟩
          (List.Forall₂.cons ⟨hne, hty, htx⟩ hgs)
      · unfold Alternating at hc ⊢
        rw [List.chain'_cons]
        exact ⟨fun e => h e.symm, hc⟩

theorem foldl_mergeStepR_groups (rs mergedR : List Run) (groupsR : List (List Run))
    (hg : List.Forall₂ GroupOf groupsR mergedR) (hc : Alternating mergedR) :
    ∃ groupsR', List.Forall₂ GroupOf groupsR' (rs.foldl mergeStepR mergedR) ∧
      groupsR'.reverse.flatten = groupsR.reverse.flatten ++ rs ∧
      Alternating (rs.foldl mergeStepR mergedR) := by
  induction rs generalizing mergedR groupsR with
  | nil => exact ⟨groupsR, hg, by simp, hc⟩
  | cons r rs ih =>
    obtain ⟨g1, h1, h2, h3⟩ := mergeStepR_groups mergedR groupsR r hg hc
    obtain ⟨g2, k1, k2, k3⟩ := ih _ g1 h1 h3
    refine ⟨g2, k1, ?_, k3⟩
    rw [k2, h2]
    simp

/-- The merged script replaces consecutive groups of same-type elements of the raw script,
one run per group, and no two adjacent runs have the same type. -/
theorem mergeRuns_groups (raw : List Run) :
    ∃ groups, groups.flatten = raw ∧ List.Forall₂ GroupOf groups (mergeRuns raw) ∧
      Alternating (mergeRuns raw) := by
  obtain ⟨gR, h1, h2, h3⟩ := foldl_mergeStepR_groups raw [] [] List.Forall₂.nil (by simp [Alternating])
  refine ⟨gR.reverse, by simpa using h2, ?_, ?_⟩
  · unfold mergeRuns
    rw [foldl_mergeStep_eq]
    exact List.forall₂_reverse_iff.mpr h1
  · unfold mergeRuns Alternating
    rw [foldl_mergeStep_eq, List.chain'_reverse]
    exact List.Chain'.imp (fun _ _ hab e => hab e.symm) h3

/-! ## Properties of the recovered script -/

theorem recover_old (a b : List JSString) (dp : Table) (i j : Nat) :
    ((recover a b dp i j).filter isOld).map Run.text = a.drop i := by
  induction i, j using recover.induct a b dp with
  | case1 i j h heq ih =>
    rw [recover, dif_pos h, if_pos heq]
    simp only [List.filter_cons, isOld, beq_self_eq_true, Bool.true_or, if_true, List.map_cons]
    rw [← List.getElem_cons_drop a i h.1, ← ih]
  | case2 i j h heq hge ih =>
    rw [recover, dif_pos h, if_neg heq, if_pos hge]
    simp only [List.filter_cons, isOld, beq_self_eq_true, Bool.or_true, if_true, List.map_cons]
    rw [← List.getElem_cons_drop a i h.1, ← ih]
  | case3 i j h heq hge ih =>
    rw [recover, dif_pos h, if_neg heq, if_neg hge]
    simp only [List.filter_cons, isOld]
    rw [if_neg (by decide)]
    exact ih
  | case4 i j h =>
    rw [recover, dif_neg h, List.filter_append, List.map_append]
    have h1 : ((a.drop i).map (Run.mk RunType.removed)).filter isOld =
        (a.drop i).map (Run.mk RunType.removed) :=
      List.filter_eq_self.mpr (by
        intro r hr
        obtain ⟨x, _, rfl⟩ := List.mem_map.mp hr
        rfl)
    have h2 : ((b.drop j).map (Run.mk RunType.added)).filter isOld = [] :=
      List.filter_eq_nil_iff.mpr (by
        intro r hr
        obtain ⟨x, _, rfl⟩ := List.mem_map.mp hr
        simp [isOld, isNew])
    rw [h1, h2]
    simp [Function.comp_def]

theorem recover_new (a b : List JSString) (dp : Table) (i j : Nat) :
    ((recover a b dp i j).filter isNew).map Run.text = b.drop j := by
  induction i, j using recover.induct a b dp with
  | case1 i j h heq ih =>
    rw [recover, dif_pos h, if_pos heq]
    simp only [List.filter_cons, isNew, beq_self_eq_true, Bool.true_or, if_true, List.map_cons]
    rw [← List.getElem_cons_drop b j h.2, ← ih, heq]
  | case2 i j h heq hge ih =>
    rw [recover, dif_pos h, if_neg heq, if_pos hge]
    simp only [List.filter_cons, isNew]
    rw [if_neg (by decide)]
    exact ih
  | case3 i j h heq hge ih =>
    rw [recover, dif_pos h, if_neg heq, if_neg hge]
    simp only [List.filter_cons, isNew, beq_self_eq_true, Bool.or_true, if_true, List.map_cons]
    rw [← List.getElem_cons_drop b j h.2, ← ih]
  | case4 i j h =>
    rw [recover, dif_neg h, List.filter_append, List.map_append]
    have h1 : ((a.drop i).map (Run.mk RunType.removed)).filter isNew = [] :=
      List.filter_eq_nil_iff.mpr (by
        intro r hr
        obtain ⟨x, _, rfl⟩ := List.mem_map.mp hr
        simp [isOld, isNew])
    have h2 : ((b.drop j).map (Run.mk RunType.added)).filter isNew =
        (b.drop j).map (Run.mk RunType.added) :=
      List.filter_eq_self.mpr (by
        intro r hr
        obtain ⟨x, _, rfl⟩ := List.mem_map.mp hr
        rfl)
    rw [h1, h2]
    simp [Function.comp_def]

theorem groups_joinTexts (groups : List (List Run)) (merged : List Run)
    (h : List.Forall₂ GroupOf groups merged) :
    joinTexts merged = joinTexts groups.flatten ∧ (merged = [] ↔ groups.flatten = []) := by
  induction h with
  | nil => simp
  | @cons g r gs rs hgr hrest ih =>
    obtain ⟨hne, _, htx⟩ := hgr
    obtain ⟨ih1, ih2⟩ := ih
    refine ⟨?_, by simp [hne]⟩
    cases rs with
    | nil =>
      have hgs : gs = [] := List.forall₂_nil_right_iff.mp hrest
      subst hgs
      simp [joinTexts_singleton, htx]
    | cons r' rs' =>
      have hfl : gs.flatten ≠ [] := fun e => by simpa using ih2.mpr e
      rw [List.flatten_cons, joinTexts_append g _ hne hfl, ← ih1, ← htx]
      unfold joinTexts
      rw [List.map_cons, List.map_cons, intercalate_cons_cons]

theorem groups_filter (q : Run → Bool) (hq : ∀ r s : Run, r.type = s.type → q r = q s)
    (groups : List (List Run)) (merged : List Run) (h : List.Forall₂ GroupOf groups merged) :
    ∃ groups', List.Forall₂ GroupOf groups' (merged.filter q) ∧
      groups'.flatten = groups.flatten.filter q := by
  induction h with
  | nil => exact ⟨[], List.Forall₂.nil, rfl⟩
  | @cons g r gs rs hgr _ ih =>
    obtain ⟨gs', h1, h2⟩ := ih
    obtain ⟨hne, hty, htx⟩ := hgr
    by_cases hr : q r = true
    · refine ⟨g :: gs', ?_, ?_⟩
      · rw [List.filter_cons_of_pos hr]
        exact List.Forall₂.cons ⟨hne, hty, htx⟩ h1
      · have hg : g.filter q = g :=
          List.filter_eq_self.mpr (fun s hs => by rw [hq s r (hty s hs)]; exact hr)
        rw [List.flatten_cons, List.flatten_cons, List.filter_append, h2, hg]
    · refine ⟨gs', ?_, ?_⟩
      · rw [List.filter_cons_of_neg hr]
        exact h1
      · have hg : g.filter q = [] :=
          List.filter_eq_nil_iff.mpr (fun s hs => by rw [hq s r (hty s hs)]; exact hr)
        rw [List.flatten_cons, List.filter_append, h2, hg, List.nil_append]

theorem joinTexts_filter_mergeRuns (q : Run → Bool)
    (hq : ∀ r s : Run, r.type = s.type → q r = q s) (raw : List Run) :
    joinTexts ((mergeRuns raw).filter q) = joinTexts (raw.filter q) := by
  obtain ⟨groups, h1, h2, _⟩ := mergeRuns_groups raw
  obtain ⟨groups', k1, k2⟩ := groups_filter q hq groups _ h2
  rw [(groups_joinTexts groups' _ k1).1, k2, h1]

/-- C1: in the script returned by `sentenceDiff`, the texts of the runs of type equal or
removed, joined with single spaces, are the sentences of `split(oldText)` joined with single
spaces, and the texts of the runs of type equal or added are those of `split(newText)`. -/
theorem sentenceDiff_reconstructs (oldText newText : JSString) :
    joinTexts ((sentenceDiff oldText newText).filter isOld) =
      List.intercalate space (split oldText) ∧
    joinTexts ((sentenceDiff oldText newText).filter isNew) =
      List.intercalate space (split newText) := by
  unfold sentenceDiff
  constructor
  · rw [joinTexts_filter_mergeRuns isOld (fun r s h => by simp [isOld, h])]
    unfold joinTexts rawScript
    rw [recover_old, List.drop_zero]
  · rw [joinTexts_filter_mergeRuns isNew (fun r s h => by simp [isNew, h])]
    unfold joinTexts rawScript
    rw [recover_new, List.drop_zero]

/-- C10: the script returned by `sentenceDiff` has no two adjacent runs of the same type,
every run has one of the three types, and the runs replace, one for one and in order,
non-empty groups of consecutive same-type elements of the raw script, the text of a run being
the texts of its group joined with single spaces. -/
theorem sentenceDiff_runs_maximal (oldText newText : JSString) :
    List.Chain' (fun x y : Run => x.type ≠ y.type) (sentenceDiff oldText newText) ∧
    (∀ r ∈ sentenceDiff oldText newText,
      r.type = RunType.equal ∨ r.type = RunType.added ∨ r.type = RunType.removed) ∧
    ∃ groups : List (List Run),
      groups.flatten = rawScript (split oldText) (split newText) ∧
      List.Forall₂ (fun g r => g ≠ [] ∧ (∀ s ∈ g, s.type = r.type) ∧
        r.text = List.intercalate space (g.map Run.text)) groups
        (sentenceDiff oldText newText) := by
  obtain ⟨groups, h1, h2, h3⟩ := mergeRuns_groups (rawScript (split oldText) (split newText))
  refine ⟨h3, ?_, groups, h1, h2⟩
  intro r _
  cases r.type <;> simp

theorem recover_self (a : List JSString) (dp : Table) (k i : Nat) (hk : a.length - i = k) :
    recover a a dp i i = (a.drop i).map (Run.mk RunType.equal) := by
  induction k generalizing i with
  | zero =>
    rw [recover, dif_neg (by omega), List.drop_of_length_le (by omega)]
    rfl
  | succ k ih =>
    have hi : i < a.length := by omega
    rw [recover, dif_pos ⟨hi, hi⟩, if_pos rfl, ih (i + 1) (by omega),
      ← List.getElem_cons_drop a i hi]
    rfl

theorem intercalate_cons_eq (sep x : JSString) (xs : List JSString) :
    List.intercalate sep (x :: xs) = x ++ (xs.map (fun y => sep ++ y)).flatten := by
  induction xs generalizing x with
  | nil => simp [intercalate_singleton]
  | cons y ys ih => rw [intercalate_cons_cons, ih]; simp [List.append_assoc]

theorem foldl_mergeStepR_equal (xs : List JSString) (t : JSString) :
    (xs.map (Run.mk RunType.equal)).foldl mergeStepR [⟨RunType.equal, t⟩] =
      [⟨RunType.equal, t ++ (xs.map (fun y => space ++ y)).flatten⟩] := by
  induction xs generalizing t with
  | nil => simp
  | cons x xs ih =>
    simp only [List.map_cons, List.foldl_cons, mergeStepR, if_true]
    rw [ih]
    simp [List.append_assoc]

theorem sentenceDiff_nil : sentenceDiff [] [] = [] := by
  unfold sentenceDiff rawScript
  have h : split [] = [] := by decide
  rw [h, recover_self [] _ 0 0 rfl]
  rfl

/-- C3 fails for a text without sentences: `sentenceDiff("", "")` is the empty script, not a
single run. -/
theorem sentenceDiff_empty_text_no_run :
    sentenceDiff [] [] = [] ∧
    sentenceDiff [] [] ≠ [⟨RunType.equal, List.intercalate space (split [])⟩] := by
  rw [sentenceDiff_nil]
  exact ⟨rfl, by simp⟩

/-- C3, amended: for a text `T` with at least one sentence, `sentenceDiff(T, T)` is a single
run of type equal whose text is the sentences of `split(T)` joined with single spaces. -/
theorem sentenceDiff_same_text (T : JSString) (h : split T ≠ []) :
    sentenceDiff T T = [⟨RunType.equal, List.intercalate space (split T)⟩] := by
  unfold sentenceDiff rawScript
  rw [recover_self (split T) _ (split T).length 0 rfl, List.drop_zero]
  unfold mergeRuns
  rw [foldl_mergeStep_eq]
  cases hs : split T with
  | nil => exact absurd hs h
  | cons x xs =>
    simp only [List.map_cons, List.foldl_cons, List.reverse_nil, mergeStepR]
    rw [foldl_mergeStepR_equal, intercalate_cons_eq]
    rfl

/-- An instance of the amended C3. -/
theorem sentenceDiff_same_text_witness :
    split (lit "Hi. Yo.") ≠ [] ∧
    sentenceDiff (lit "Hi. Yo.") (lit "Hi. Yo.") =
      [⟨RunType.equal, List.intercalate space (split (lit "Hi. Yo."))⟩] :=
  ⟨by decide, sentenceDiff_same_text (lit "Hi. Yo.") (by decide)⟩

/-! ## The table `dp` and longest common subsequences -/

theorem lcsLen_nil_right (a : List JSString) : lcsLen a [] = 0 := by
  cases a <;> simp [lcsLen]

theorem lcsLen_drop (a b : List JSString) (i j : Nat) (hi : i < a.length) (hj : j < b.length) :
    lcsLen (a.drop i) (b.drop j) =
      if a[i] = b[j] then 1 + lcsLen (a.drop (i + 1)) (b.drop (j + 1))
      else max (lcsLen (a.drop (i + 1)) (b.drop j)) (lcsLen (a.drop i) (b.drop (j + 1))) := by
  rw [← List.getElem_cons_drop a i hi, ← List.getElem_cons_drop b j hj, lcsLen]

theorem lcsLen_drop_zero (a b : List JSString) (i j : Nat)
    (h : ¬ (i < a.length ∧ j < b.length)) : lcsLen (a.drop i) (b.drop j) = 0 := by
  by_cases hi : i < a.length
  · have hj : b.length ≤ j := by omega
    rw [List.drop_of_length_le hj, lcsLen_nil_right]
  · rw [List.drop_of_length_le (by omega), lcsLen]

theorem lcsLen_upper (a b : List JSString) :
    ∀ c : List JSString, c.Sublist a → c.Sublist b → c.length ≤ lcsLen a b := by
  induction a generalizing b with
  | nil =>
    intro c ha _
    rw [List.sublist_nil.mp ha]
    simp
  | cons x xs iha =>
    induction b with
    | nil =>
      intro c _ hb
      rw [List.sublist_nil.mp hb]
      simp
    | cons y ys ihb =>
      intro c ha hb
      rw [lcsLen]
      split_ifs with hxy
      · have h1 : c.tail.Sublist xs := by
          rcases List.sublist_cons_iff.mp ha with h | ⟨r, rfl, h⟩
          · exact (List.tail_sublist c).trans h
          · exact h
        have h2 : c.tail.Sublist ys := by
          rcases List.sublist_cons_iff.mp hb with h | ⟨r, rfl, h⟩
          · exact (List.tail_sublist c).trans h
          · exact h
        have := iha ys c.tail h1 h2
        rw [List.length_tail] at this
        omega
      · rcases List.sublist_cons_iff.mp ha with h | ⟨r, rfl, h⟩
        · exact le_trans (iha (y :: ys) c h hb) (le_max_left _ _)
        · rcases List.sublist_cons_iff.mp hb with h' | ⟨r', he, h'⟩
          · exact le_trans (ihb (x :: r) ha h') (le_max_right _ _)
          · injection he with he1 he2
            exact absurd he1 hxy

theorem dpGet_dpSet (dp : Table) (i j v i' j' : Nat) (hi : i < dp.length)
    (hj : j < (dp.getD i []).length) :
    dpGet (dpSet dp i j v) i' j' = if i' = i ∧ j' = j then v else dpGet dp i' j' := by
  unfold dpGet dpSet
  simp only [List.getD_eq_getElem?_getD] at hj ⊢
  by_cases h1 : i' = i
  · subst h1
    rw [List.getElem?_set_self hi]
    simp only [Option.getD_some, true_and]
    by_cases h2 : j' = j
    · subst h2
      rw [List.getElem?_set_self hj, if_pos rfl]
      rfl
    · rw [List.getElem?_set_ne (Ne.symm h2), if_neg h2]
  · rw [List.getElem?_set_ne (Ne.symm h1), if_neg (fun h => h1 h.1)]

theorem shape_dpSet (dp : Table) (n m i j v : Nat) (h : Shape dp n m) :
    Shape (dpSet dp i j v) n m := by
  obtain ⟨h1, h2⟩ := h
  refine ⟨by simp [dpSet, h1], ?_⟩
  intro i' hi'
  have hlen := h2 i' hi'
  unfold dpSet
  simp only [List.getD_eq_getElem?_getD] at hlen ⊢
  by_cases he : i' = i
  · subst he
    rw [List.getElem?_set_self (by omega)]
    simpa using hlen
  · rw [List.getElem?_set_ne (Ne.symm he)]
    exact hlen

theorem fillCell_spec (a b : List JSString) (dp : Table) (i j : Nat)
    (hi : i < a.length) (hj : j < b.length) (hs : Shape dp a.length b.length)
    (h11 : dpGet dp (i + 1) (j + 1) = lcsLen (a.drop (i + 1)) (b.drop (j + 1)))
    (h10 : dpGet dp (i + 1) j = lcsLen (a.drop (i + 1)) (b.drop j))
    (h01 : dpGet dp i (j + 1) = lcsLen (a.drop i) (b.drop (j + 1))) :
    Shape (fillCell a b dp i j) a.length b.length ∧
    dpGet (fillCell a b dp i j) i j = lcsLen (a.drop i) (b.drop j) ∧
    ∀ i' j', ¬ (i' = i ∧ j' = j) → dpGet (fillCell a b dp i j) i' j' = dpGet dp i' j' := by
  have hil : i < dp.length := by rw [hs.1]; omega
  have hjl : j < (dp.getD i []).length := by rw [hs.2 i (by omega)]; omega
  have hopt : (a[i]? = b[j]?) ↔ a[i] = b[j] := by
    rw [List.getElem?_eq_getElem hi, List.getElem?_eq_getElem hj]
    exact Option.some_inj
  unfold fillCell
  split_ifs with he
  · refine ⟨shape_dpSet _ _ _ _ _ _ hs, ?_, ?_⟩
    · rw [dpGet_dpSet _ _ _ _ _ _ hil hjl, if_pos ⟨rfl, rfl⟩, lcsLen_drop a b i j hi hj,
        if_pos (hopt.mp he), h11]
    · intro i' j' hne
      rw [dpGet_dpSet _ _ _ _ _ _ hil hjl, if_neg hne]
  · refine ⟨shape_dpSet _ _ _ _ _ _ hs, ?_, ?_⟩
    · rw [dpGet_dpSet _ _ _ _ _ _ hil hjl, if_pos ⟨rfl, rfl⟩, lcsLen_drop a b i j hi hj,
        if_neg (fun h => he (hopt.mpr h)), h10, h01]
    · intro i' j' hne
      rw [dpGet_dpSet _ _ _ _ _ _ hil hjl, if_neg hne]

theorem fillRow_spec (a b : List JSString) (i : Nat) (hi : i < a.length) (c : Nat)
    (hc : c ≤ b.length) (dp : Table) (hs : Shape dp a.length b.length)
    (hbelow : ∀ i' j', i < i' → i' ≤ a.length → j' ≤ b.length →
      dpGet dp i' j' = lcsLen (a.drop i') (b.drop j'))
    (hrow : ∀ j', c ≤ j' → j' ≤ b.length → dpGet dp i j' = lcsLen (a.drop i) (b.drop j')) :
    Shape (fillRow a b i c dp) a.length b.length ∧
    (∀ i' j', i ≤ i' → i' ≤ a.length → j' ≤ b.length →
      dpGet (fillRow a b i c dp) i' j' = lcsLen (a.drop i') (b.drop j')) ∧
    (∀ i' j', i' < i → dpGet (fillRow a b i c dp) i' j' = dpGet dp i' j') := by
  induction c generalizing dp with
  | zero =>
    refine ⟨hs, ?_, fun _ _ _ => rfl⟩
    intro i' j' h1 h2 h3
    simp only [fillRow]
    rcases Nat.eq_or_lt_of_le h1 with h | h
    · subst h
      exact hrow j' (Nat.zero_le _) h3
    · exact hbelow i' j' h h2 h3
  | succ j ih =>
    obtain ⟨k1, k2, k3⟩ := fillCell_spec a b dp i j hi (by omega) hs
      (hbelow _ _ (by omega) (by omega) (by omega))
      (hbelow _ _ (by omega) (by omega) (by omega))
      (hrow _ (by omega) (by omega))
    obtain ⟨r1, r2, r3⟩ := ih (by omega) (fillCell a b dp i j) k1
      (fun i' j' h1 h2 h3 => by
        rw [k3 i' j' (by omega)]
        exact hbelow i' j' h1 h2 h3)
      (fun j' h1 h2 => by
        rcases Nat.eq_or_lt_of_le h1 with h | h
        · subst h
          exact k2
        · rw [k3 i j' (by omega)]
          exact hrow j' (by omega) h2)
    refine ⟨r1, r2, ?_⟩
    intro i' j' h
    simp only [fillRow]
    rw [r3 i' j' h, k3 i' j' (by omega)]

theorem fillRows_spec (a b : List JSString) (k : Nat) (hk : k ≤ a.length) (dp : Table)
    (hs : Shape dp a.length b.length)
    (hdone : ∀ i' j', k ≤ i' → i' ≤ a.length → j' ≤ b.length →
      dpGet dp i' j' = lcsLen (a.drop i') (b.drop j'))
    (hlast : ∀ i', i' ≤ a.length → dpGet dp i' b.length = 0) :
    ∀ i' j', i' ≤ a.length → j' ≤ b.length →
      dpGet (fillRows a b k dp) i' j' = lcsLen (a.drop i') (b.drop j') := by
  induction k generalizing dp with
  | zero =>
    intro i' j' h1 h2
    exact hdone i' j' (Nat.zero_le _) h1 h2
  | succ i ih =>
    have hzero : ∀ i', lcsLen (a.drop i') (b.drop b.length) = 0 := fun i' =>
      lcsLen_drop_zero a b i' b.length (by omega)
    obtain ⟨r1, r2, r3⟩ := fillRow_spec a b i (by omega) b.length (le_refl _) dp hs
      (fun i' j' h1 h2 h3 => hdone i' j' (by omega) h2 h3)
      (fun j' h1 h2 => by
        have : j' = b.length := by omega
        subst this
        rw [hlast i (by omega), hzero])
    simp only [fillRows]
    apply ih (by omega) _ r1 r2
    intro i' hi'
    by_cases h : i ≤ i'
    · rw [r2 i' _ h hi' (le_refl _), hzero]
    · rw [r3 i' _ (by omega)]
      exact hlast i' hi'

theorem dpGet_newTable (n m i j : Nat) : dpGet (newTable n m) i j = 0 := by
  unfold dpGet newTable
  simp only [List.getD_eq_getElem?_getD, List.getElem?_replicate]
  split_ifs with h
  · simp only [Option.getD_some, List.getElem?_replicate]
    split_ifs <;> rfl
  · rfl

theorem shape_newTable (n m : Nat) : Shape (newTable n m) n m := by
  refine ⟨by simp [newTable], ?_⟩
  intro i hi
  unfold newTable
  simp only [List.getD_eq_getElem?_getD, List.getElem?_replicate]
  rw [if_pos (by omega)]
  simp

/-- The entry `dp[i][j]` of the filled table is the length of a longest common subsequence
of the suffixes of `a` from `i` and of `b` from `j`. -/
theorem dpGet_lcsTable (a b : List JSString) (i j : Nat) (hi : i ≤ a.length)
    (hj : j ≤ b.length) :
    dpGet (lcsTable a b) i j = lcsLen (a.drop i) (b.drop j) := by
  unfold lcsTable
  apply fillRows_spec a b a.length (le_refl _) _ (shape_newTable _ _) _ _ i j hi hj
  · intro i' j' h1 h2 _
    rw [dpGet_newTable, lcsLen_drop_zero a b i' j' (by omega)]
  · intro i' _
    exact dpGet_newTable _ _ _ _

theorem recover_equal_length (a b : List JSString) (i j : Nat) :
    ((recover a b (lcsTable a b) i j).filter isEqual).length =
      lcsLen (a.drop i) (b.drop j) := by
  induction i, j using recover.induct a b (lcsTable a b) with
  | case1 i j h heq ih =>
    rw [recover, dif_pos h, if_pos heq, lcsLen_drop a b i j h.1 h.2, if_pos heq, ← ih]
    simp only [List.filter_cons, isEqual, beq_self_eq_true, if_true, List.length_cons]
    omega
  | case2 i j h heq hge ih =>
    rw [recover, dif_pos h, if_neg heq, if_pos hge, lcsLen_drop a b i j h.1 h.2, if_neg heq,
      ← ih]
    rw [dpGet_lcsTable a b (i + 1) j (by omega) (by omega),
      dpGet_lcsTable a b i (j + 1) (by omega) (by omega)] at hge
    simp only [List.filter_cons, isEqual]
    rw [if_neg (by decide), ih, max_eq_left hge]
  | case3 i j h heq hge ih =>
    rw [recover, dif_pos h, if_neg heq, if_neg hge, lcsLen_drop a b i j h.1 h.2, if_neg heq,
      ← ih]
    rw [dpGet_lcsTable a b (i + 1) j (by omega) (by omega),
      dpGet_lcsTable a b i (j + 1) (by omega) (by omega)] at hge
    simp only [List.filter_cons, isEqual]
    rw [if_neg (by decide), ih, max_eq_right (by omega)]
  | case4 i j h =>
    rw [recover, dif_neg h, lcsLen_drop_zero a b i j h, List.filter_append]
    have h1 : ((a.drop i).map (Run.mk RunType.removed)).filter isEqual = [] :=
      List.filter_eq_nil_iff.mpr (by
        intro r hr
        obtain ⟨x, _, rfl⟩ := List.mem_map.mp hr
        simp [isEqual])
    have h2 : ((b.drop j).map (Run.mk RunType.added)).filter isEqual = [] :=
      List.filter_eq_nil_iff.mpr (by
        intro r hr
        obtain ⟨x, _, rfl⟩ := List.mem_map.mp hr
        simp [isEqual])
    rw [h1, h2]
    rfl

theorem filter_isEqual_sublist_isOld (rs : List Run) :
    (rs.filter isEqual).Sublist (rs.filter isOld) :=
  List.monotone_filter_right rs (fun r h => by
    simp only [isEqual, isOld, Bool.or_eq_true] at h ⊢
    exact Or.inl h)

theorem filter_isEqual_sublist_isNew (rs : List Run) :
    (rs.filter isEqual).Sublist (rs.filter isNew) :=
  List.monotone_filter_right rs (fun r h => by
    simp only [isEqual, isNew, Bool.or_eq_true] at h ⊢
    exact Or.inl h)

/-- C2: the sentences marked equal in the script recovered before merging form a common
subsequence of `a = split(oldText)` and `b = split(newText)`; their number is `dp[0][0]`;
and no common subsequence of `a` and `b` is longer. -/
theorem rawScript_equal_is_longest (oldText newText : JSString) :
    (((rawScript (split oldText) (split newText)).filter isEqual).map Run.text).Sublist
      (split oldText) ∧
    (((rawScript (split oldText) (split newText)).filter isEqual).map Run.text).Sublist
      (split newText) ∧
    (((rawScript (split oldText) (split newText)).filter isEqual).map Run.text).length =
      dpGet (lcsTable (split oldText) (split newText)) 0 0 ∧
    ∀ c : List JSString, c.Sublist (split oldText) → c.Sublist (split newText) →
      c.length ≤
        (((rawScript (split oldText) (split newText)).filter isEqual).map Run.text).length := by
  have hold := recover_old (split oldText) (split newText)
    (lcsTable (split oldText) (split newText)) 0 0
  have hnew := recover_new (split oldText) (split newText)
    (lcsTable (split oldText) (split newText)) 0 0
  have hlen := recover_equal_length (split oldText) (split newText) 0 0
  rw [List.drop_zero] at hold hnew
  rw [List.drop_zero, List.drop_zero] at hlen
  refine ⟨?_, ?_, ?_, ?_⟩
  · have := (filter_isEqual_sublist_isOld (rawScript (split oldText) (split newText))).map
      Run.text
    unfold rawScript at this ⊢
    rwa [hold] at this
  · have := (filter_isEqual_sublist_isNew (rawScript (split oldText) (split newText))).map
      Run.text
    unfold rawScript at this ⊢
    rwa [hnew] at this
  · rw [List.length_map, dpGet_lcsTable _ _ 0 0 (Nat.zero_le _) (Nat.zero_le _),
      List.drop_zero, List.drop_zero]
    exact hlen
  · intro c h1 h2
    rw [List.length_map]
    unfold rawScript
    rw [hlen]
    exact lcsLen_upper _ _ c h1 h2

/-! ## White-space normalisation -/

section Words

variable (p : Nat → Bool)

theorem wordsBy_nil : wordsBy p [] = [] := by rw [wordsBy]

theorem wordsBy_cons_pos (c : Nat) (r : JSString) (h : p c = true) :
    wordsBy p (c :: r) = wordsBy p r := by
  rw [wordsBy, if_pos h]

theorem wordsBy_cons_neg (c : Nat) (r : JSString) (h : p c = false) :
    wordsBy p (c :: r) =
      (c :: r.takeWhile (fun d => !p d)) :: wordsBy p (r.dropWhile (fun d => !p d)) := by
  rw [wordsBy, if_neg (by simp [h])]

theorem collapseBy_nil : collapseBy p [] = [] := by rw [collapseBy]

theorem collapseBy_cons_pos (c : Nat) (r : JSString) (h : p c = true) :
    collapseBy p (c :: r) = 32 :: collapseBy p (r.dropWhile p) := by
  rw [collapseBy, if_pos h]

theorem collapseBy_cons_neg (c : Nat) (r : JSString) (h : p c = false) :
    collapseBy p (c :: r) = c :: collapseBy p r := by
  rw [collapseBy, if_neg (by simp [h])]

theorem takeWhile_not_append (x y : JSString) (c : Nat) (hc : p c = true) :
    (x ++ c :: y).takeWhile (fun d => !p d) = x.takeWhile (fun d => !p d) := by
  induction x with
  | nil => simp [List.takeWhile_cons, hc]
  | cons d x ih =>
    rw [List.cons_append, List.takeWhile_cons, List.takeWhile_cons, ih]

theorem dropWhile_not_append (x y : JSString) (c : Nat) (hc : p c = true) :
    (x ++ c :: y).dropWhile (fun d => !p d) = x.dropWhile (fun d => !p d) ++ c :: y := by
  induction x with
  | nil => simp [List.dropWhile_cons, hc]
  | cons d x ih =>
    rw [List.cons_append, List.dropWhile_cons, List.dropWhile_cons, ih]
    split_ifs <;> rfl

theorem wordsBy_append_sep_aux (n : Nat) : ∀ (x y : JSString) (c : Nat), x.length ≤ n →
    p c = true → wordsBy p (x ++ c :: y) = wordsBy p x ++ wordsBy p y := by
  induction n with
  | zero =>
    intro x y c hx hc
    have : x = [] := List.length_eq_zero.mp (by omega)
    subst this
    rw [List.nil_append, wordsBy_cons_pos p c y hc, wordsBy_nil, List.nil_append]
  | succ n ih =>
    intro x y c hx hc
    cases x with
    | nil => rw [List.nil_append, wordsBy_cons_pos p c y hc, wordsBy_nil, List.nil_append]
    | cons d x =>
      cases hd : p d with
      | true =>
        rw [List.cons_append, wordsBy_cons_pos p d _ hd, wordsBy_cons_pos p d _ hd]
        exact ih x y c (by simpa using hx) hc
      | false =>
        rw [List.cons_append, wordsBy_cons_neg p d _ hd, wordsBy_cons_neg p d _ hd,
          takeWhile_not_append p x y c hc, dropWhile_not_append p x y c hc,
          ih (x.dropWhile (fun d => !p d)) y c _ hc, List.cons_append]
        have := (List.dropWhile_sublist (fun d => !p d) (l := x)).length_le
        simp only [List.length_cons] at hx
        omega

/-- A separator splits the words on its two sides. -/
theorem wordsBy_append_sep (x y : JSString) (c : Nat) (hc : p c = true) :
    wordsBy p (x ++ c :: y) = wordsBy p x ++ wordsBy p y :=
  wordsBy_append_sep_aux p x.length x y c (le_refl _) hc

theorem wordsBy_all_sep (t : JSString) (h : ∀ c ∈ t, p c = true) : wordsBy p t = [] := by
  induction t with
  | nil => exact wordsBy_nil p
  | cons c t ih =>
    rw [wordsBy_cons_pos p c t (h c (List.mem_cons_self _ _))]
    exact ih (fun d hd => h d (List.mem_cons_of_mem _ hd))

theorem wordsBy_append_all_sep (z t : JSString) (h : ∀ c ∈ t, p c = true) :
    wordsBy p (z ++ t) = wordsBy p z := by
  cases t with
  | nil => rw [List.append_nil]
  | cons c t =>
    rw [wordsBy_append_sep p z t c (h c (List.mem_cons_self _ _)),
      wordsBy_all_sep p t (fun d hd => h d (List.mem_cons_of_mem _ hd)), List.append_nil]

theorem wordsBy_dropWhile (y : JSString) : wordsBy p (y.dropWhile p) = wordsBy p y := by
  induction y with
  | nil => rfl
  | cons c r ih =>
    cases hc : p c with
    | true => rw [List.dropWhile_cons_of_pos hc, ih, wordsBy_cons_pos p c r hc]
    | false => rw [List.dropWhile_cons_of_neg (by simp [hc])]

theorem rdropWhile_decomp (y : JSString) :
    ∃ t, y = y.rdropWhile p ++ t ∧ ∀ c ∈ t, p c = true := by
  refine ⟨(y.reverse.takeWhile p).reverse, ?_, ?_⟩
  · unfold List.rdropWhile
    rw [← List.reverse_append, List.takeWhile_append_dropWhile, List.reverse_reverse]
  · intro c hc
    exact List.mem_takeWhile_imp (List.mem_reverse.mp hc)

theorem wordsBy_rdropWhile (y : JSString) : wordsBy p (y.rdropWhile p) = wordsBy p y := by
  obtain ⟨t, h1, h2⟩ := rdropWhile_decomp p y
  conv_rhs => rw [h1]
  rw [wordsBy_append_all_sep p _ t h2]

end Words

theorem words_trim (x : JSString) : words (trim x) = words x := by
  unfold trim words
  rw [wordsBy_rdropWhile, wordsBy_dropWhile]

theorem words_intercalate (ps : List JSString) :
    words (List.intercalate space ps) = (ps.map words).flatten := by
  induction ps with
  | nil => simp [List.intercalate, words, wordsBy_nil]
  | cons p ps ih =>
    cases ps with
    | nil => simp [intercalate_singleton]
    | cons q qs =>
      rw [intercalate_cons_cons]
      show words (p ++ [32] ++ List.intercalate space (q :: qs)) = _
      rw [List.append_assoc, List.singleton_append]
      unfold words at ih ⊢
      rw [wordsBy_append_sep isWhiteSpace p _ 32 (by decide), ih]
      simp [words]

section Collapse

variable (p : Nat → Bool)

theorem noLead_dropWhile (l : JSString) : NoLead p (l.dropWhile p) := by
  induction l with
  | nil => trivial
  | cons c r ih =>
    cases hc : p c with
    | true => rw [List.dropWhile_cons_of_pos hc]; exact ih
    | false => rw [List.dropWhile_cons_of_neg (by simp [hc])]; exact hc

theorem dropWhile_of_noLead (s : JSString) (h : NoLead p s) : s.dropWhile p = s := by
  cases s with
  | nil => rfl
  | cons c r => exact List.dropWhile_cons_of_neg (by simp [show p c = false from h])

theorem noLead_collapseBy (s : JSString) (h : NoLead p s) : NoLead p (collapseBy p s) := by
  cases s with
  | nil => rw [collapseBy_nil]; trivial
  | cons c r =>
    have hc : p c = false := h
    rw [collapseBy_cons_neg p c r hc]
    exact hc

theorem dropWhile_collapseBy (h32 : p 32 = true) (s : JSString) :
    (collapseBy p s).dropWhile p = collapseBy p (s.dropWhile p) := by
  cases s with
  | nil => rw [List.dropWhile_nil, collapseBy_nil]; rfl
  | cons c r =>
    cases hc : p c with
    | true =>
      rw [collapseBy_cons_pos p c r hc, List.dropWhile_cons_of_pos h32,
        List.dropWhile_cons_of_pos hc]
      exact dropWhile_of_noLead p _ (noLead_collapseBy p _ (noLead_dropWhile p r))
    | false =>
      rw [collapseBy_cons_neg p c r hc, List.dropWhile_cons_of_neg (by simp [hc]),
        List.dropWhile_cons_of_neg (by simp [hc]), collapseBy_cons_neg p c r hc]

theorem collapseBy_takeWhile (r : JSString) :
    collapseBy p r =
      r.takeWhile (fun d => !p d) ++ collapseBy p (r.dropWhile (fun d => !p d)) := by
  induction r with
  | nil => simp [collapseBy_nil]
  | cons d r ih =>
    cases hd : p d with
    | true =>
      rw [List.takeWhile_cons_of_neg (by simp [hd]), List.dropWhile_cons_of_neg (by simp [hd])]
      rfl
    | false =>
      rw [List.takeWhile_cons_of_pos (by simp [hd]), List.dropWhile_cons_of_pos (by simp [hd]),
        collapseBy_cons_neg p d r hd, List.cons_append, ← ih]

theorem rdropWhile_of_all_not (l : JSString) (h : ∀ x ∈ l, p x = false) :
    l.rdropWhile p = l := by
  rcases List.eq_nil_or_concat l with rfl | ⟨l', x, rfl⟩
  · rfl
  · rw [List.concat_eq_append] at h ⊢
    exact List.rdropWhile_concat_neg p l' x (by simp [h x (by simp)])

theorem rdropWhile_append (u v : JSString) :
    (u ++ v).rdropWhile p = if v.rdropWhile p = [] then u.rdropWhile p else u ++ v.rdropWhile p := by
  unfold List.rdropWhile
  rw [List.reverse_append, List.dropWhile_append]
  by_cases h : List.dropWhile p v.reverse = []
  · rw [h]
    simp
  · have h' : (List.dropWhile p v.reverse).isEmpty = false := by
      cases hx : List.dropWhile p v.reverse with
      | nil => exact absurd hx h
      | cons _ _ => rfl
    rw [h', if_neg (by simp), if_neg (by simpa using h)]
    simp

theorem dropWhile_not_head (r r2 : JSString) (d : Nat)
    (h : r.dropWhile (fun c => !p c) = d :: r2) : p d = true := by
  have hne : r.dropWhile (fun c => !p c) ≠ [] := by rw [h]; simp
  have := List.head_dropWhile_not (fun c => !p c) r hne
  simp only [h, List.head_cons] at this
  simpa using this

theorem wordsBy_ne_nil_aux (n : Nat) : ∀ s : JSString, s.length ≤ n →
    ∀ w ∈ wordsBy p s, w ≠ [] := by
  induction n with
  | zero =>
    intro s hs w hw
    have : s = [] := List.length_eq_zero.mp (by omega)
    subst this
    rw [wordsBy_nil] at hw
    cases hw
  | succ n ih =>
    intro s hs w hw
    cases s with
    | nil => rw [wordsBy_nil] at hw; cases hw
    | cons c r =>
      simp only [List.length_cons] at hs
      cases hc : p c with
      | true =>
        rw [wordsBy_cons_pos p c r hc] at hw
        exact ih r (by omega) w hw
      | false =>
        rw [wordsBy_cons_neg p c r hc] at hw
        rcases List.mem_cons.mp hw with h | h
        · rw [h]; simp
        · have := (List.dropWhile_sublist (fun d => !p d) (l := r)).length_le
          exact ih _ (by omega) w h

theorem intercalate_eq_nil (ws : List JSString) (hne : ∀ w ∈ ws, w ≠ [])
    (h : List.intercalate space ws = []) : ws = [] := by
  cases ws with
  | nil => rfl
  | cons w ws =>
    exfalso
    have hw := hne w (List.mem_cons_self _ _)
    cases ws with
    | nil => rw [intercalate_singleton] at h; exact hw h
    | cons w' ws' =>
      rw [intercalate_cons_cons] at h
      have := List.append_eq_nil.mp (List.append_eq_nil.mp h).1
      exact hw this.1

theorem rdropWhile_collapseBy_aux (h32 : p 32 = true) (n : Nat) : ∀ s : JSString,
    s.length ≤ n → NoLead p s →
    (collapseBy p s).rdropWhile p = List.intercalate space (wordsBy p s) := by
  induction n with
  | zero =>
    intro s hs _
    have : s = [] := List.length_eq_zero.mp (by omega)
    subst this
    rw [collapseBy_nil, wordsBy_nil]
    rfl
  | succ n ih =>
    intro s hs hlead
    cases s with
    | nil => rw [collapseBy_nil, wordsBy_nil]; rfl
    | cons c r =>
      have hc : p c = false := hlead
      simp only [List.length_cons] at hs
      have hw : ∀ x ∈ c :: r.takeWhile (fun d => !p d), p x = false := by
        intro x hx
        rcases List.mem_cons.mp hx with h | h
        · rw [h]; exact hc
        · simpa using List.mem_takeWhile_imp h
      rw [collapseBy_cons_neg p c r hc, collapseBy_takeWhile p r, wordsBy_cons_neg p c r hc,
        ← List.cons_append]
      cases hr' : r.dropWhile (fun d => !p d) with
      | nil =>
        rw [collapseBy_nil, wordsBy_nil, List.append_nil, intercalate_singleton]
        exact rdropWhile_of_all_not p _ hw
      | cons d r2 =>
        have hd : p d = true := dropWhile_not_head p r r2 d hr'
        have hlen : (d :: r2).length ≤ r.length := by
          rw [← hr']
          exact (List.dropWhile_sublist _).length_le
        simp only [List.length_cons] at hlen
        have hlen2 : (r2.dropWhile p).length ≤ r2.length :=
          (List.dropWhile_sublist _).length_le
        have hih := ih (r2.dropWhile p) (by omega) (noLead_dropWhile p r2)
        rw [wordsBy_dropWhile] at hih
        rw [collapseBy_cons_pos p d r2 hd, wordsBy_cons_pos p d r2 hd, rdropWhile_append,
          ← List.singleton_append, rdropWhile_append p [32], hih]
        cases hws : wordsBy p r2 with
        | nil =>
          have h1 : List.intercalate space ([] : List JSString) = [] := rfl
          rw [h1, if_pos rfl, List.rdropWhile_singleton, if_pos h32, if_pos rfl,
            intercalate_singleton]
          exact rdropWhile_of_all_not p _ hw
        | cons w2 ws2 =>
          have hne : List.intercalate space (w2 :: ws2) ≠ [] := by
            intro h
            have hall : ∀ w ∈ w2 :: ws2, w ≠ [] := by
              rw [← hws]
              exact wordsBy_ne_nil_aux p r2.length r2 (le_refl _)
            cases intercalate_eq_nil _ hall h
          rw [if_neg hne, if_neg (by simp), intercalate_cons_cons]
          simp [space, List.append_assoc]

end Collapse

/-- The normal form of a string is its words joined with single spaces. -/
theorem normalizeWs_eq (s : JSString) : normalizeWs s = List.intercalate space (words s) := by
  unfold normalizeWs trim collapseWs words
  rw [dropWhile_collapseBy isWhiteSpace (by decide),
    rdropWhile_collapseBy_aux isWhiteSpace (by decide) _ _ (le_refl _)
      (noLead_dropWhile isWhiteSpace s), wordsBy_dropWhile]

theorem splitScan_words (l : List Nat) : ∀ (skipping prev : Bool) (cur : JSString),
    (skipping = true → cur = []) →
    ((splitScan l skipping prev cur).map words).flatten = words (cur ++ l) := by
  induction l with
  | nil =>
    intro skipping prev cur _
    simp [splitScan]
  | cons c rest ih =>
    intro skipping prev cur hcur
    unfold splitScan
    split_ifs with h1 h2
    · simp only [Bool.and_eq_true] at h1
      rw [hcur h1.1, ih true false [] (fun _ => rfl), List.nil_append, List.nil_append]
      exact (wordsBy_cons_pos isWhiteSpace c rest h1.2).symm
    · simp only [Bool.and_eq_true] at h2
      rw [List.map_cons, List.flatten_cons, ih true false [] (fun _ => rfl), List.nil_append]
      exact (wordsBy_append_sep isWhiteSpace cur rest c h2.2).symm
    · rw [ih false (isTerminator c) (cur ++ [c]) (fun h => by cases h), List.append_assoc,
        List.singleton_append]

theorem words_filter_trim (ps : List JSString) :
    (((ps.map trim).filter (fun s => !s.isEmpty)).map words).flatten =
      (ps.map words).flatten := by
  induction ps with
  | nil => rfl
  | cons q qs ih =>
    rw [List.map_cons, List.map_cons, List.flatten_cons, ← ih]
    cases ht : trim q with
    | nil =>
      have hq : words q = [] := by rw [← words_trim, ht]; exact wordsBy_nil _
      rw [List.filter_cons_of_neg (by simp), hq, List.nil_append]
    | cons x xs =>
      rw [List.filter_cons_of_pos (by simp), List.map_cons, List.flatten_cons, ← ht, words_trim]

/-- C7: the sentences of `split(T)` joined with single spaces and `T` itself have the same
white-space normal form (each maximal white-space run collapsed to one space, leading and
trailing white space stripped). -/
theorem split_rejoin_normalizeWs (T : JSString) :
    normalizeWs (List.intercalate space (split T)) = normalizeWs T := by
  rw [normalizeWs_eq, normalizeWs_eq, words_intercalate]
  unfold split
  rw [words_filter_trim, splitScan_words T false false [] (fun h => by cases h), List.nil_append]

end TonePicker
